import Mathlib

set_option maxRecDepth 8192

/-!
Verification of the `StrictHttpFirewall` Express middleware
(`src/strict-http-firewall.ts`, current revision: the async variant with
`decodedUrlBlockList` / `encodedUrlBlockList` support and the five-field
`encodedUrlContains`).

Modelling conventions:
* JS strings are Lean `String`; possibly `undefined`/`null` request fields
  are `Option String`.
* A user-supplied predicate function is `String → Except Unit Bool`;
  `Except.error ()` models the function throwing an exception.
* The `ALLOW_ANY_HTTP_METHOD` sentinel (reference-compared with `===`) is
  `none` in `Option (List String)`: the constructor is the only place that
  can install the sentinel reference.
* A thrown `RequestRejectedError` is the `Except.error` channel of each
  gate; the promise chain `a().then(b)....catch(h)` of `firewall` is the
  `Except` bind with a final catch-all handler.
-/

namespace HttpFirewall

/-- A user-supplied predicate function on strings; `Except.error ()` models
the underlying JS function throwing when invoked. -/
abbrev UserPred : Type := String → Except Unit Bool

/-- The read-only view of an Express `Request` used by the firewall
(`req.method`, `req.url`, `req.originalUrl`, `req.path`, `req.baseUrl`,
`req.route`, `req.hostname`). -/
structure Request where
  method : String
  url : Option String
  originalUrl : Option String
  path : Option String
  baseUrl : Option String
  route : Option String
  hostname : Option String

/-- `HttpFirewallOptions` from `src/types/firewall.models.ts`. Boolean
toggles are compared with `=== true` in the source, so `undefined` and
`false` are indistinguishable and are both modelled by `false`. -/
structure HttpFirewallOptions where
  unsafeAllowAnyHttpMethod : Bool := false
  allowedHttpMethods : Option (List String) := none
  allowSemicolon : Bool := false
  allowUrlEncodedSlash : Bool := false
  allowUrlEncodedDoubleSlash : Bool := false
  allowUrlEncodedPeriod : Bool := false
  allowBackSlash : Bool := false
  allowNull : Bool := false
  allowUrlEncodedPercent : Bool := false
  allowUrlEncodedCarriageReturn : Bool := false
  allowUrlEncodedLineFeed : Bool := false
  allowUrlEncodedParagraphSeparator : Bool := false
  allowUrlEncodedLineSeparator : Bool := false
  allowedHeaderNames : Option UserPred := none
  allowedHeaderValues : Option UserPred := none
  allowedParameterNames : Option UserPred := none
  allowedParameterValues : Option UserPred := none
  allowedHostnames : Option UserPred := none
  logToConsole : Bool := false
  decodedUrlBlockList : Option (List String) := none
  encodedUrlBlockList : Option (List String) := none

/-! Pre-defined constraint literals of `StrictHttpFirewall`. -/

def ENCODED_PERCENT : String := "%25"

def PERCENT : String := "%"

def FORBIDDEN_ENCODED_PERIOD : List String := ["%2e", "%2E"]

def FORBIDDEN_SEMICOLON : List String := [";", "%3b", "%3B"]

def FORBIDDEN_FORWARDSLASH : List String := ["%2f", "%2F"]

def FORBIDDEN_DOUBLE_FORWARDSLASH : List String := ["//", "%2f%2f", "%2f%2F", "%2F%2f", "%2F%2F"]

def FORBIDDEN_BACKSLASH : List String := ["\\", "%5c", "%5C"]

def FORBIDDEN_NULL : List String := ["\x00", "%00"]

def FORBIDDEN_LF : List String := ["\n", "%0a", "%0A"]

def FORBIDDEN_CR : List String := ["\r", "%0d", "%0D"]

def FORBIDDEN_LINE_SEPARATOR : List String := ["\u2028"]

def FORBIDDEN_PARAGRAPH_SEPARATOR : List String := ["\u2029"]

/-- The configured state of one `StrictHttpFirewall` instance after its
constructor has run. `allowedHttpMethods = none` models the field holding
the `ALLOW_ANY_HTTP_METHOD` sentinel reference. The header/parameter
predicates are stored but never invoked by any gate; `none` stands for the
default (`ASSIGNED_AND_NOT_ISO_CONTROL` resp. allow-any-value) predicate
object that the constructor leaves in place. -/
structure FirewallState where
  logToConsole : Bool
  encodedUrlBlocklist : List String
  decodedUrlBlocklist : List String
  allowedHttpMethods : Option (List String)
  allowedHostnames : UserPred
  allowedHeaderNames : Option UserPred
  allowedHeaderValues : Option UserPred
  allowedParameterNames : Option UserPred
  allowedParameterValues : Option UserPred

/-! Blocklist construction: the constructor mutates the two arrays via
`push`, `urlBlocklistsAddAll`, `urlBlocklistsRemoveAll` and `removeItems`;
we model the arrays' evolution as a pure pipeline over a pair of lists,
one step per statement block of the constructor, in source order. -/

/-- The pair `{encodedUrlBlocklist, decodedUrlBlocklist}`. -/
structure BlockPair where
  enc : List String
  dec : List String
deriving Repr

/-- `removeItems` for a single item: `indexOf` + `splice(index, 1)`, i.e.
remove the first occurrence if present. -/
def removeItem : List String → String → List String
  | [], _ => []
  | a :: l, x => if a = x then l else a :: removeItem l x

/-- `removeItems(originalArray, itemsTobeRemoved)`: remove the first
occurrence of each listed item in turn. -/
def removeItems (originalArray : List String) (itemsTobeRemoved : List String) : List String :=
  itemsTobeRemoved.foldl removeItem originalArray

/-- `urlBlocklistsAddAll`: push the values onto both lists. -/
def pairAddAll (values : List String) (p : BlockPair) : BlockPair :=
  ⟨p.enc ++ values, p.dec ++ values⟩

/-- `urlBlocklistsRemoveAll`: `removeItems` on both lists. -/
def pairRemoveAll (values : List String) (p : BlockPair) : BlockPair :=
  ⟨removeItems p.enc values, removeItems p.dec values⟩

/-- `this.encodedUrlBlocklist.push(...values)`. -/
def pushEnc (values : List String) (p : BlockPair) : BlockPair :=
  { p with enc := p.enc ++ values }

/-- `this.decodedUrlBlocklist.push(...values)`. -/
def pushDec (values : List String) (p : BlockPair) : BlockPair :=
  { p with dec := p.dec ++ values }

/-- `this.removeItems(this.encodedUrlBlocklist, values)`. -/
def removeEnc (values : List String) (p : BlockPair) : BlockPair :=
  { p with enc := removeItems p.enc values }

/-- The unconditional prefix of the constructor (before the
`options !== undefined` check), in source order. -/
def baselinePair : BlockPair :=
  pushEnc FORBIDDEN_PARAGRAPH_SEPARATOR <|
  pushEnc FORBIDDEN_LINE_SEPARATOR <|
  pushDec [PERCENT] <|
  pushEnc FORBIDDEN_ENCODED_PERIOD <|
  pushEnc [ENCODED_PERCENT] <|
  pairAddAll FORBIDDEN_CR <|
  pairAddAll FORBIDDEN_LF <|
  pairAddAll FORBIDDEN_NULL <|
  pairAddAll FORBIDDEN_BACKSLASH <|
  pairAddAll FORBIDDEN_DOUBLE_FORWARDSLASH <|
  pairAddAll FORBIDDEN_FORWARDSLASH <|
  pairAddAll FORBIDDEN_SEMICOLON ⟨[], []⟩

/-- `if (options.allowSemicolon === true) ... else ...`. -/
def applyAllowSemicolon (o : HttpFirewallOptions) (p : BlockPair) : BlockPair :=
  if o.allowSemicolon then pairRemoveAll FORBIDDEN_SEMICOLON p
  else pairAddAll FORBIDDEN_SEMICOLON p

/-- `if (options.allowUrlEncodedSlash === true) ... else ...`. -/
def applyAllowUrlEncodedSlash (o : HttpFirewallOptions) (p : BlockPair) : BlockPair :=
  if o.allowUrlEncodedSlash then pairRemoveAll FORBIDDEN_FORWARDSLASH p
  else pairAddAll FORBIDDEN_FORWARDSLASH p

/-- `if (options.allowUrlEncodedDoubleSlash === true) ... else ...`. -/
def applyAllowUrlEncodedDoubleSlash (o : HttpFirewallOptions) (p : BlockPair) : BlockPair :=
  if o.allowUrlEncodedDoubleSlash then pairRemoveAll FORBIDDEN_DOUBLE_FORWARDSLASH p
  else pairAddAll FORBIDDEN_DOUBLE_FORWARDSLASH p

/-- `if (options.allowUrlEncodedPeriod === true) ... else ...`
(encoded list only). -/
def applyAllowUrlEncodedPeriod (o : HttpFirewallOptions) (p : BlockPair) : BlockPair :=
  if o.allowUrlEncodedPeriod then removeEnc FORBIDDEN_ENCODED_PERIOD p
  else pushEnc FORBIDDEN_ENCODED_PERIOD p

/-- `if (options.allowBackSlash === true) ... else ...`. -/
def applyAllowBackSlash (o : HttpFirewallOptions) (p : BlockPair) : BlockPair :=
  if o.allowBackSlash then pairRemoveAll FORBIDDEN_BACKSLASH p
  else pairAddAll FORBIDDEN_BACKSLASH p

/-- `if (options.allowNull === true) ... else ...`. -/
def applyAllowNull (o : HttpFirewallOptions) (p : BlockPair) : BlockPair :=
  if o.allowNull then pairRemoveAll FORBIDDEN_NULL p
  else pairAddAll FORBIDDEN_NULL p

/-- `if (options.allowUrlEncodedPercent === true) ... else ...`:
`%25` on the encoded list, `%` on the decoded list. -/
def applyAllowUrlEncodedPercent (o : HttpFirewallOptions) (p : BlockPair) : BlockPair :=
  if o.allowUrlEncodedPercent then
    ⟨removeItems p.enc [ENCODED_PERCENT], removeItems p.dec [PERCENT]⟩
  else
    ⟨p.enc ++ [ENCODED_PERCENT], p.dec ++ [PERCENT]⟩

/-- `if (options.allowUrlEncodedCarriageReturn === true) ... else ...`. -/
def applyAllowUrlEncodedCarriageReturn (o : HttpFirewallOptions) (p : BlockPair) : BlockPair :=
  if o.allowUrlEncodedCarriageReturn then pairRemoveAll FORBIDDEN_CR p
  else pairAddAll FORBIDDEN_CR p

/-- `if (options.allowUrlEncodedLineFeed === true) ... else ...`. -/
def applyAllowUrlEncodedLineFeed (o : HttpFirewallOptions) (p : BlockPair) : BlockPair :=
  if o.allowUrlEncodedLineFeed then pairRemoveAll FORBIDDEN_LF p
  else pairAddAll FORBIDDEN_LF p

/-- `if (options.allowUrlEncodedParagraphSeparator === true) ... else ...`
(encoded list only). -/
def applyAllowUrlEncodedParagraphSeparator (o : HttpFirewallOptions) (p : BlockPair) : BlockPair :=
  if o.allowUrlEncodedParagraphSeparator then removeEnc FORBIDDEN_PARAGRAPH_SEPARATOR p
  else pushEnc FORBIDDEN_PARAGRAPH_SEPARATOR p

/-- `if (options.allowUrlEncodedLineSeparator === true) ... else ...`
(encoded list only). -/
def applyAllowUrlEncodedLineSeparator (o : HttpFirewallOptions) (p : BlockPair) : BlockPair :=
  if o.allowUrlEncodedLineSeparator then removeEnc FORBIDDEN_LINE_SEPARATOR p
  else pushEnc FORBIDDEN_LINE_SEPARATOR p

/-- The two final `decodedUrlBlockList` / `encodedUrlBlockList` pushes
(each guarded by `!== undefined && length !== 0`). -/
def applyUserBlockLists (o : HttpFirewallOptions) (p : BlockPair) : BlockPair :=
  let p1 :=
    match o.decodedUrlBlockList with
    | some l => if l.length ≠ 0 then pushDec l p else p
    | none => p
  match o.encodedUrlBlockList with
  | some l => if l.length ≠ 0 then pushEnc l p1 else p1
  | none => p1

/-- The blocklist pair produced by the constructor when `options` is
defined: baseline followed by each option block in source order. -/
def buildBlocklists (o : HttpFirewallOptions) : BlockPair :=
  applyUserBlockLists o <|
  applyAllowUrlEncodedLineSeparator o <|
  applyAllowUrlEncodedParagraphSeparator o <|
  applyAllowUrlEncodedLineFeed o <|
  applyAllowUrlEncodedCarriageReturn o <|
  applyAllowUrlEncodedPercent o <|
  applyAllowNull o <|
  applyAllowBackSlash o <|
  applyAllowUrlEncodedPeriod o <|
  applyAllowUrlEncodedDoubleSlash o <|
  applyAllowUrlEncodedSlash o <|
  applyAllowSemicolon o baselinePair

/-- `createDefaultAllowedHttpMethods()`. -/
def createDefaultAllowedHttpMethods : List String :=
  ["DELETE", "GET", "HEAD", "OPTIONS", "PATCH", "POST", "PUT"]

/-- The default `allowedHostnames` predicate: `hostName => true`. -/
def defaultAllowedHostnames : UserPred := fun _ => .ok true

/-- The `StrictHttpFirewall` constructor. `none` models calling it with
`options === undefined`. -/
def strictHttpFirewall : Option HttpFirewallOptions → FirewallState
  | none =>
    { logToConsole := false
      encodedUrlBlocklist := baselinePair.enc
      decodedUrlBlocklist := baselinePair.dec
      allowedHttpMethods := some createDefaultAllowedHttpMethods
      allowedHostnames := defaultAllowedHostnames
      allowedHeaderNames := none
      allowedHeaderValues := none
      allowedParameterNames := none
      allowedParameterValues := none }
  | some o =>
    let p := buildBlocklists o
    { logToConsole := o.logToConsole
      encodedUrlBlocklist := p.enc
      decodedUrlBlocklist := p.dec
      allowedHttpMethods :=
        match o.allowedHttpMethods with
        | some ms => if ms.length ≠ 0 then some ms else none
        | none => if o.unsafeAllowAnyHttpMethod then none else some createDefaultAllowedHttpMethods
      allowedHostnames :=
        match o.allowedHostnames with
        | some f => f
        | none => defaultAllowedHostnames
      allowedHeaderNames := o.allowedHeaderNames
      allowedHeaderValues := o.allowedHeaderValues
      allowedParameterNames := o.allowedParameterNames
      allowedParameterValues := o.allowedParameterValues }

/-! The per-request checks. -/

/-- JS substring containment: `hay.indexOf(needle) !== -1`; true iff some
suffix of `hay` starts with `needle`. -/
def containsSub : List Char → List Char → Bool
  | [], needle => needle.isEmpty
  | hay@(_ :: rest), needle => needle.isPrefixOf hay || containsSub rest needle

/-- `valueContains(value, contains)`:
`value !== undefined && value !== null && value.length > 0 &&
value.indexOf(contains) !== -1`. -/
def valueContains (value : Option String) (needle : String) : Bool :=
  match value with
  | none => false
  | some v => v.length != 0 && containsSub v.data needle.data

/-- `encodedUrlContains(req, value)`: checks `req.path`, `req.url`,
`req.baseUrl`, `req.originalUrl` and `req.route` in turn. -/
def encodedUrlContains (req : Request) (value : String) : Bool :=
  valueContains req.path value || valueContains req.url value ||
  valueContains req.baseUrl value || valueContains req.originalUrl value ||
  valueContains req.route value

/-- `decodedUrlContains(req, value)`: checks `req.path` only. -/
def decodedUrlContains (req : Request) (value : String) : Bool :=
  valueContains req.path value

/-- `containsOnlyPrintableAsciiCharacters(uri)`: every char must lie in
`[U+0020, U+007E]`; `undefined`/`null` passes. -/
def containsOnlyPrintableAsciiCharacters (uri : Option String) : Bool :=
  match uri with
  | none => true
  | some s => s.data.all fun ch => !(decide (ch < ' ') || decide (ch > '~'))

/-! `isNormalized`: the right-to-left traversal-segment scan. -/

/-- JS `path.charAt(i)` for char comparisons against `'.'` and `'/'`:
out-of-range reads give `''`, which compares unequal to both; we use the
NUL char as the default, which also compares unequal in every use site. -/
def charAtD (cs : List Char) (i : Nat) : Char :=
  cs.getD i '\x00'

/-- JS `path.lastIndexOf('/', j)`: the largest index `≤ j` holding `'/'`,
`none` for `-1`. -/
def lastSlashLE (cs : List Char) : Nat → Option Nat
  | 0 => if charAtD cs 0 = '/' then some 0 else none
  | j + 1 => if charAtD cs (j + 1) = '/' then some (j + 1) else lastSlashLE cs j

theorem lastSlashLE_le {cs : List Char} : ∀ {j s : Nat}, lastSlashLE cs j = some s → s ≤ j
  | 0, s, h => by
    unfold lastSlashLE at h
    split at h
    · cases h; exact Nat.le_refl 0
    · cases h
  | j + 1, s, h => by
    unfold lastSlashLE at h
    split at h
    · cases h; exact Nat.le_refl (j + 1)
    · exact Nat.le_succ_of_le (lastSlashLE_le h)

/-- The loop body of `isNormalized`, with loop variable `i` (the source
runs `for (let i = path.length; i > 0; ) { ... i = slashIndex; }`;
`slashIndex = -1` leaves the loop via the `i > 0` test after the gap
checks, modelled by the `none` branch). -/
def isNormalizedAux (cs : List Char) : Nat → Bool
  | 0 => true
  | i + 1 =>
    match h : lastSlashLE cs i with
    | none =>
      if i + 2 = 2 ∧ charAtD cs 0 = '.' then false
      else if i + 2 = 3 ∧ charAtD cs 0 = '.' ∧ charAtD cs 1 = '.' then false
      else true
    | some s =>
      if i + 1 - s = 2 ∧ charAtD cs (s + 1) = '.' then false
      else if i + 1 - s = 3 ∧ charAtD cs (s + 1) = '.' ∧ charAtD cs (s + 2) = '.' then false
      else isNormalizedAux cs s
termination_by i => i
decreasing_by exact Nat.lt_succ_of_le (lastSlashLE_le h)

/-- `isNormalized(path)` on a definitely-present string. -/
def isNormalizedStr (cs : List Char) : Bool :=
  isNormalizedAux cs cs.length

/-- `isNormalized(path)`: `undefined`/`null` is vacuously normalized. -/
def isNormalized (path : Option String) : Bool :=
  match path with
  | none => true
  | some p => isNormalizedStr p.data

/-- `isNormalizedRequest(req)`: `url`, `originalUrl`, `path` and `route`
must each be normalized. -/
def isNormalizedRequest (req : Request) : Bool :=
  isNormalized req.url && isNormalized req.originalUrl &&
  isNormalized req.path && isNormalized req.route

/-- The reason carried by the `RequestRejectedError` (or, for
`predicateFault`, by the raw exception a user predicate threw) that the
promise chain's final `catch` receives. -/
inductive Failure where
  | methodNotAllowed
  | blocklisted
  | untrustedHost
  | predicateFault
  | notNormalized
  | nonPrintableAscii
deriving DecidableEq, Repr

/-- `req.method.toUpperCase()`, modelled character-wise (HTTP method
names are ASCII). -/
def toUpperMethod (s : String) : String :=
  ⟨s.data.map Char.toUpper⟩

/-- `rejectForbiddenHttpMethod(req)`. -/
def rejectForbiddenHttpMethod (fw : FirewallState) (req : Request) : Except Failure Unit :=
  match fw.allowedHttpMethods with
  | none => .ok ()
  | some ms =>
    if ms.contains (toUpperMethod req.method) then .ok () else .error .methodNotAllowed

/-- `rejectedBlocklistedUrls(req)`: scan the encoded list (throwing on the
first match), then the decoded list. -/
def rejectedBlocklistedUrls (fw : FirewallState) (req : Request) : Except Failure Unit :=
  if fw.encodedUrlBlocklist.any fun forbidden => encodedUrlContains req forbidden then
    .error .blocklisted
  else if fw.decodedUrlBlocklist.any fun forbidden => decodedUrlContains req forbidden then
    .error .blocklisted
  else .ok ()

/-- `rejectedUntrustedHosts(req)`: test the hostname when present; a throw
from the user predicate escapes as a raw rejection of the promise. -/
def rejectedUntrustedHosts (fw : FirewallState) (req : Request) : Except Failure Unit :=
  match req.hostname with
  | none => .ok ()
  | some serverName =>
    match fw.allowedHostnames serverName with
    | .ok true => .ok ()
    | .ok false => .error .untrustedHost
    | .error _ => .error .predicateFault

/-- `rejectNonNormalizedRequests(req)`. -/
def rejectNonNormalizedRequests (req : Request) : Except Failure Unit :=
  if isNormalizedRequest req then .ok () else .error .notNormalized

/-- `rejectNonPrintableAsciiCharactersInFieldName(req, req.url,
'requestURI')`. -/
def rejectNonPrintableAsciiCharacters (toCheck : Option String) : Except Failure Unit :=
  if containsOnlyPrintableAsciiCharacters toCheck then .ok () else .error .nonPrintableAscii

/-- The promise chain of `firewall` up to `next()`: each gate in source
order, short-circuiting on the first rejection. -/
def firewallDecision (fw : FirewallState) (req : Request) : Except Failure Unit := do
  rejectForbiddenHttpMethod fw req
  rejectedBlocklistedUrls fw req
  rejectedUntrustedHosts fw req
  rejectNonNormalizedRequests req
  rejectNonPrintableAsciiCharacters req.url

/-- The response written by `reject`: `writeHead(403, Content-Type:
text/plain)` + `end('FORBIDDEN')`. -/
structure HttpResponse where
  status : Nat
  contentType : String
  body : String
deriving DecidableEq, Repr

def forbiddenResponse : HttpResponse :=
  { status := 403, contentType := "text/plain", body := "FORBIDDEN" }

/-- What the middleware does with the connection: hand over to the next
handler (no response written), or write a response and stop the chain. -/
inductive Outcome where
  | callNext
  | responded (response : HttpResponse)
deriving DecidableEq, Repr

/-- `firewall(req, res, next)`: run the gates; on success call `next()`,
on any rejection the final `catch` runs `this.reject(req, res)`. -/
def firewallOutcome (fw : FirewallState) (req : Request) : Outcome :=
  match firewallDecision fw req with
  | .ok _ => .callNext
  | .error _ => .responded forbiddenResponse

/-- One evaluation step carrying the instance state through, as the
middleware does with `this`: the gates only read the state. -/
def firewallEval (fw : FirewallState) (req : Request) : FirewallState × Outcome :=
  (fw, firewallOutcome fw req)

/-- Evaluate a sequence of requests against one shared instance,
threading the instance state through every evaluation. -/
def firewallEvalSeq : FirewallState → List Request → FirewallState × List Outcome
  | fw, [] => (fw, [])
  | fw, r :: rs =>
    let step := firewallEval fw r
    let rest := firewallEvalSeq step.1 rs
    (rest.1, step.2 :: rest.2)

/-- `httpFirewall(options)` returns a middleware that builds a fresh
`StrictHttpFirewall` from `options` on each request and runs `firewall`
on it. -/
def httpFirewallHandler (options : Option HttpFirewallOptions) (req : Request) : Outcome :=
  firewallOutcome (strictHttpFirewall options) req

/-! The `Predicate<T>` class (`src/types/firewall.models.ts`): a wrapper
around a boolean-valued function with `and` / `or` / `not` combinators.
The combinators accept either a `Predicate` or a raw function
(`Predicate<T> | PredicateType<T>`), normalized by `isInstance`. -/

/-- `Predicate<T>`: wraps `condition: (x: T) => boolean`. -/
structure Predicate (α : Type u) where
  condition : α → Bool

/-- The `Predicate<T> | PredicateType<T>` union accepted by `and`/`or`. -/
def PredicateInput (α : Type u) : Type u := Predicate α ⊕ (α → Bool)

/-- `Predicate.of(condition)`. -/
def Predicate.of (condition : α → Bool) : Predicate α :=
  ⟨condition⟩

/-- `Predicate.isInstance(input)`: pass a `Predicate` through, wrap a raw
function with `of`. -/
def Predicate.isInstance : PredicateInput α → Predicate α
  | .inl p => p
  | .inr f => Predicate.of f

/-- `test(x)`: invoke the wrapped condition. -/
def Predicate.test (p : Predicate α) (x : α) : Bool :=
  p.condition x

/-- `p.and(input)`. -/
def Predicate.and (p : Predicate α) (input : PredicateInput α) : Predicate α :=
  Predicate.of fun x => p.test x && (Predicate.isInstance input).test x

/-- `p.or(input)`. -/
def Predicate.or (p : Predicate α) (input : PredicateInput α) : Predicate α :=
  Predicate.of fun x => p.test x || (Predicate.isInstance input).test x

/-- `p.not()`. -/
def Predicate.not (p : Predicate α) : Predicate α :=
  Predicate.of fun x => !p.test x

/-! Specification-side descriptions of the individual gates, used to state
the pipeline claims independently of the monadic chain. -/

/-- The method gate fails: a concrete allowed-set is configured and the
upper-cased request method is not a member. -/
def methodGateFails (fw : FirewallState) (req : Request) : Bool :=
  match fw.allowedHttpMethods with
  | none => false
  | some ms => !(ms.contains (toUpperMethod req.method))

/-- The blocklist gate fails: some encoded-list entry matches some raw
field, or some decoded-list entry matches the decoded path. -/
def blocklistGateFails (fw : FirewallState) (req : Request) : Bool :=
  (fw.encodedUrlBlocklist.any fun forbidden => encodedUrlContains req forbidden) ||
  (fw.decodedUrlBlocklist.any fun forbidden => decodedUrlContains req forbidden)

/-- The hostname gate hits a throwing user predicate. -/
def hostGateFaults (fw : FirewallState) (req : Request) : Bool :=
  match req.hostname with
  | none => false
  | some serverName =>
    match fw.allowedHostnames serverName with
    | .error _ => true
    | .ok _ => false

/-- The hostname gate rejects: the predicate returns `false` on the
present hostname. -/
def hostGateRejects (fw : FirewallState) (req : Request) : Bool :=
  match req.hostname with
  | none => false
  | some serverName =>
    match fw.allowedHostnames serverName with
    | .ok b => !b
    | .error _ => false

/-- Containment of a blocklisted substring in a possibly-absent request
field: the field is present, non-empty, and has the entry as a contiguous
substring. -/
def fieldHas (field : Option String) (needle : String) : Prop :=
  ∃ s, field = some s ∧ s.data ≠ [] ∧ needle.data <:+: s.data

/-! Specification-side path segmentation (spec §4.3/§9: split the path on
`/` and reject any `.` or `..` segment). -/

/-- Split a character list on `'/'` into its segments. -/
def splitSlash : List Char → List (List Char)
  | [] => [[]]
  | c :: cs =>
    if c = '/' then [] :: splitSlash cs
    else
      match splitSlash cs with
      | [] => [[c]]
      | s :: ss => (c :: s) :: ss

/-- A segment is acceptable unless it is exactly `.` or `..`. -/
def segOk (s : List Char) : Bool :=
  !(decide (s = ['.']) || decide (s = ['.', '.']))

/-- No `/`-delimited segment of the path is a traversal segment. -/
def allSegOk (cs : List Char) : Bool :=
  (splitSlash cs).all segOk

/-! The eleven boolean `allowX` relaxation toggles, for the monotonicity
claim. -/

/-- Enumeration of the `allowX` boolean options that edit the blocklists. -/
inductive AllowOption where
  | semicolon
  | urlEncodedSlash
  | urlEncodedDoubleSlash
  | urlEncodedPeriod
  | backSlash
  | nullByte
  | urlEncodedPercent
  | urlEncodedCarriageReturn
  | urlEncodedLineFeed
  | urlEncodedParagraphSeparator
  | urlEncodedLineSeparator
deriving DecidableEq

/-- Overwrite one `allowX` toggle, leaving every other option field
unchanged. -/
def setOption (x : AllowOption) (b : Bool) (o : HttpFirewallOptions) : HttpFirewallOptions :=
  match x with
  | .semicolon => { o with allowSemicolon := b }
  | .urlEncodedSlash => { o with allowUrlEncodedSlash := b }
  | .urlEncodedDoubleSlash => { o with allowUrlEncodedDoubleSlash := b }
  | .urlEncodedPeriod => { o with allowUrlEncodedPeriod := b }
  | .backSlash => { o with allowBackSlash := b }
  | .nullByte => { o with allowNull := b }
  | .urlEncodedPercent => { o with allowUrlEncodedPercent := b }
  | .urlEncodedCarriageReturn => { o with allowUrlEncodedCarriageReturn := b }
  | .urlEncodedLineFeed => { o with allowUrlEncodedLineFeed := b }
  | .urlEncodedParagraphSeparator => { o with allowUrlEncodedParagraphSeparator := b }
  | .urlEncodedLineSeparator => { o with allowUrlEncodedLineSeparator := b }

/-- Pointwise multiset containment of one blocklist pair in another. -/
def pairLe (p q : BlockPair) : Prop :=
  (∀ s : String, p.enc.count s ≤ q.enc.count s) ∧
  (∀ s : String, p.dec.count s ≤ q.dec.count s)

/-! Concrete fixtures for the witness theorems. -/

/-- A plain `GET /` request. -/
def simpleGetRequest : Request :=
  { method := "GET", url := some "/a", originalUrl := some "/a", path := some "/a",
    baseUrl := none, route := none, hostname := some "localhost" }

/-- A `TRACE /` request. -/
def traceRequest : Request :=
  { method := "TRACE", url := some "/", originalUrl := some "/", path := some "/",
    baseUrl := none, route := none, hostname := some "localhost" }

/-- A hostname predicate that throws on every input. -/
def throwingHostnames : UserPred := fun _ => .error ()

/-! Gate characterization lemmas. -/

theorem rejectForbiddenHttpMethod_eq (fw : FirewallState) (req : Request) :
    rejectForbiddenHttpMethod fw req =
      if methodGateFails fw req then .error .methodNotAllowed else .ok () := by
  unfold rejectForbiddenHttpMethod methodGateFails
  cases fw.allowedHttpMethods with
  | none => rfl
  | some ms =>
    by_cases h : ms.contains req.method.toUpper <;> simp [h]

theorem rejectedBlocklistedUrls_eq (fw : FirewallState) (req : Request) :
    rejectedBlocklistedUrls fw req =
      if blocklistGateFails fw req then .error .blocklisted else .ok () := by
  unfold rejectedBlocklistedUrls blocklistGateFails
  by_cases h1 : fw.encodedUrlBlocklist.any fun forbidden => encodedUrlContains req forbidden <;>
    by_cases h2 : fw.decodedUrlBlocklist.any fun forbidden => decodedUrlContains req forbidden <;>
    simp [h1, h2]

theorem rejectedUntrustedHosts_eq (fw : FirewallState) (req : Request) :
    rejectedUntrustedHosts fw req =
      if hostGateFaults fw req then .error .predicateFault
      else if hostGateRejects fw req then .error .untrustedHost
      else .ok () := by
  unfold rejectedUntrustedHosts hostGateFaults hostGateRejects
  cases hh : req.hostname with
  | none => rfl
  | some serverName =>
    cases hp : fw.allowedHostnames serverName with
    | error e => simp [hp]
    | ok b => cases b <;> simp [hp]

theorem rejectNonNormalizedRequests_eq (req : Request) :
    rejectNonNormalizedRequests req =
      if isNormalizedRequest req then .ok () else .error .notNormalized := rfl

theorem rejectNonPrintableAsciiCharacters_eq (toCheck : Option String) :
    rejectNonPrintableAsciiCharacters toCheck =
      if containsOnlyPrintableAsciiCharacters toCheck then .ok () else .error .nonPrintableAscii := rfl

/-- The instance state threads unchanged through a request sequence. -/
theorem firewallEvalSeq_fst (fw : FirewallState) :
    ∀ reqs : List Request, (firewallEvalSeq fw reqs).1 = fw := by
  intro reqs
  induction reqs with
  | nil => rfl
  | cons r rs ih => simp [firewallEvalSeq, firewallEval, ih]

/-- The outcomes of a sequence evaluated on one instance. -/
theorem firewallEvalSeq_snd (fw : FirewallState) :
    ∀ reqs : List Request, (firewallEvalSeq fw reqs).2 = reqs.map (firewallOutcome fw) := by
  intro reqs
  induction reqs with
  | nil => rfl
  | cons r rs ih => simp [firewallEvalSeq, firewallEval, ih]

/-- C9: for all predicates `p` and `q` over one type and every value `x`,
`p.and(q).test(x) = p.test(x) && q.test(x)`,
`p.or(q).test(x) = p.test(x) || q.test(x)`, and
`p.not().test(x) = !p.test(x)`; each combinator builds a new predicate
from the operands' `test` behaviour (the same equations hold when the
right operand is a raw boolean function). -/
theorem spec_C9 (α : Type) (p q : Predicate α) (f : α → Bool) (x : α) :
    ((p.and (Sum.inl q)).test x = (p.test x && q.test x)) ∧
    ((p.or (Sum.inl q)).test x = (p.test x || q.test x)) ∧
    (p.not.test x = !p.test x) ∧
    ((p.and (Sum.inr f)).test x = (p.test x && f x)) ∧
    ((p.or (Sum.inr f)).test x = (p.test x || f x)) ∧
    (p.and (Sum.inl q) = Predicate.of fun y => p.test y && q.test y) :=
  ⟨rfl, rfl, rfl, rfl, rfl, rfl⟩

/-- C5: the façade writes exactly the fixed 403 `text/plain` `FORBIDDEN`
response precisely when some gate fails (and then the next handler is not
invoked), and invokes the next handler (writing nothing) precisely when
every gate passes. -/
theorem spec_C5 (fw : FirewallState) (req : Request) :
    (firewallOutcome fw req = .callNext ↔ firewallDecision fw req = .ok ()) ∧
    ((∃ e, firewallDecision fw req = .error e) ↔
      firewallOutcome fw req = .responded forbiddenResponse) := by
  unfold firewallOutcome
  cases h : firewallDecision fw req with
  | ok u => cases u; simp
  | error e => simp

/-- C8: after evaluating any sequence of requests on a configured
instance, the allowed-methods set, both blocklists, the hostname
predicate and the stored header/parameter predicates are exactly as the
constructor left them; no evaluation step changes the state. -/
theorem spec_C8 (opts : Option HttpFirewallOptions) (reqs : List Request) :
    (firewallEvalSeq (strictHttpFirewall opts) reqs).1.allowedHttpMethods =
      (strictHttpFirewall opts).allowedHttpMethods ∧
    (firewallEvalSeq (strictHttpFirewall opts) reqs).1.encodedUrlBlocklist =
      (strictHttpFirewall opts).encodedUrlBlocklist ∧
    (firewallEvalSeq (strictHttpFirewall opts) reqs).1.decodedUrlBlocklist =
      (strictHttpFirewall opts).decodedUrlBlocklist ∧
    (firewallEvalSeq (strictHttpFirewall opts) reqs).1.allowedHostnames =
      (strictHttpFirewall opts).allowedHostnames ∧
    (firewallEvalSeq (strictHttpFirewall opts) reqs).1.allowedHeaderNames =
      (strictHttpFirewall opts).allowedHeaderNames ∧
    (firewallEvalSeq (strictHttpFirewall opts) reqs).1.allowedHeaderValues =
      (strictHttpFirewall opts).allowedHeaderValues ∧
    (firewallEvalSeq (strictHttpFirewall opts) reqs).1.allowedParameterNames =
      (strictHttpFirewall opts).allowedParameterNames ∧
    (firewallEvalSeq (strictHttpFirewall opts) reqs).1.allowedParameterValues =
      (strictHttpFirewall opts).allowedParameterValues ∧
    (firewallEvalSeq (strictHttpFirewall opts) reqs).1 = strictHttpFirewall opts := by
  rw [firewallEvalSeq_fst]
  exact ⟨rfl, rfl, rfl, rfl, rfl, rfl, rfl, rfl, rfl⟩

/-- C10: the `httpFirewall(options)` middleware, which builds a fresh
instance from `options` for each request, produces on every request
sequence exactly the outcomes of a single instance constructed once from
the same options and reused throughout (whose state the evaluations leave
untouched). -/
theorem spec_C10 (options : Option HttpFirewallOptions) (reqs : List Request) :
    (firewallEvalSeq (strictHttpFirewall options) reqs).2 =
      reqs.map (httpFirewallHandler options) ∧
    (firewallEvalSeq (strictHttpFirewall options) reqs).1 = strictHttpFirewall options := by
  refine ⟨?_, firewallEvalSeq_fst _ _⟩
  rw [firewallEvalSeq_snd]
  rfl

/-- The validation pipeline in first-failing-gate normal form. -/
theorem firewallDecision_eq (fw : FirewallState) (req : Request) :
    firewallDecision fw req =
      (if methodGateFails fw req then Except.error Failure.methodNotAllowed
       else if blocklistGateFails fw req then Except.error Failure.blocklisted
       else if hostGateFaults fw req then Except.error Failure.predicateFault
       else if hostGateRejects fw req then Except.error Failure.untrustedHost
       else if !isNormalizedRequest req then Except.error Failure.notNormalized
       else if !containsOnlyPrintableAsciiCharacters req.url then
         Except.error Failure.nonPrintableAscii
       else Except.ok ()) := by
  unfold firewallDecision
  rw [rejectForbiddenHttpMethod_eq, rejectedBlocklistedUrls_eq, rejectedUntrustedHosts_eq,
    rejectNonNormalizedRequests_eq, rejectNonPrintableAsciiCharacters_eq]
  by_cases h1 : methodGateFails fw req <;>
  by_cases h2 : blocklistGateFails fw req <;>
  by_cases h3 : hostGateFaults fw req <;>
  by_cases h4 : hostGateRejects fw req <;>
  by_cases h5 : isNormalizedRequest req <;>
  by_cases h6 : containsOnlyPrintableAsciiCharacters req.url <;>
  simp [h1, h2, h3, h4, h5, h6, Bind.bind, Except.bind]

/-- C2: the five gates run in the fixed order method check, blocklist
membership, hostname predicate, path normalization, printable-ASCII scan;
the decision is exactly the first failing gate's rejection (a throwing
hostname predicate counting as that gate's fault), later gates cannot
influence it, and being an `Except` value it carries at most one
rejection reason. -/
theorem spec_C2 (fw : FirewallState) (req : Request) :
    firewallDecision fw req =
      (if methodGateFails fw req then Except.error Failure.methodNotAllowed
       else if blocklistGateFails fw req then Except.error Failure.blocklisted
       else if hostGateFaults fw req then Except.error Failure.predicateFault
       else if hostGateRejects fw req then Except.error Failure.untrustedHost
       else if !isNormalizedRequest req then Except.error Failure.notNormalized
       else if !containsOnlyPrintableAsciiCharacters req.url then
         Except.error Failure.nonPrintableAscii
       else Except.ok ()) :=
  firewallDecision_eq fw req

/-- C6: whenever the configured hostname predicate throws on the
request's (present) hostname, the exception is contained by the pipeline:
the request is rejected with the fixed 403 response and the next handler
is never invoked, regardless of the other gates. -/
theorem spec_C6 (fw : FirewallState) (req : Request) (h : String)
    (hh : req.hostname = some h) (hp : fw.allowedHostnames h = .error ()) :
    firewallOutcome fw req = .responded forbiddenResponse ∧
    firewallOutcome fw req ≠ .callNext := by
  have hfault : hostGateFaults fw req = true := by
    simp [hostGateFaults, hh, hp]
  have hd : ∃ e, firewallDecision fw req = Except.error e := by
    rw [firewallDecision_eq]
    by_cases h1 : methodGateFails fw req <;>
      by_cases h2 : blocklistGateFails fw req <;>
      simp [h1, h2, hfault]
  obtain ⟨e, he⟩ := hd
  exact ⟨by simp [firewallOutcome, he], by simp [firewallOutcome, he]⟩

/-- Witness for C6: a firewall configured with an always-throwing
hostname predicate rejects a plain request with the fixed 403 response. -/
theorem spec_C6_witness :
    firewallOutcome (strictHttpFirewall (some { allowedHostnames := some throwingHostnames }))
        simpleGetRequest = .responded forbiddenResponse ∧
    firewallOutcome (strictHttpFirewall (some { allowedHostnames := some throwingHostnames }))
        simpleGetRequest ≠ .callNext :=
  spec_C6 (strictHttpFirewall (some { allowedHostnames := some throwingHostnames }))
    simpleGetRequest "localhost" rfl rfl

/-- C4: whenever a concrete allowed-methods set is configured (no
allow-any sentinel) and the upper-cased request method is not a member,
the decision is the method-not-allowed rejection; the default allowed set
is exactly {GET, HEAD, POST, PUT, PATCH, DELETE, OPTIONS}, so a TRACE
request is rejected under default options. -/
theorem spec_C4 :
    (∀ (fw : FirewallState) (req : Request) (ms : List String),
        fw.allowedHttpMethods = some ms → ms.contains (toUpperMethod req.method) = false →
        firewallDecision fw req = Except.error Failure.methodNotAllowed) ∧
    List.Perm createDefaultAllowedHttpMethods
      ["GET", "HEAD", "POST", "PUT", "PATCH", "DELETE", "OPTIONS"] ∧
    (∀ req : Request, req.method = "TRACE" →
        firewallDecision (strictHttpFirewall none) req = Except.error Failure.methodNotAllowed) := by
  have hA : ∀ (fw : FirewallState) (req : Request) (ms : List String),
      fw.allowedHttpMethods = some ms → ms.contains (toUpperMethod req.method) = false →
      firewallDecision fw req = Except.error Failure.methodNotAllowed := by
    intro fw req ms hms hc
    have hg : rejectForbiddenHttpMethod fw req = Except.error Failure.methodNotAllowed := by
      unfold rejectForbiddenHttpMethod
      rw [hms]
      have hmem : toUpperMethod req.method ∉ ms := by simpa using hc
      simp [hmem]
    simp [firewallDecision, hg, Bind.bind, Except.bind]
  refine ⟨hA, by decide, ?_⟩
  intro req hm
  apply hA (strictHttpFirewall none) req createDefaultAllowedHttpMethods rfl
  rw [hm]
  decide

/-- Witness for C4: the default instance rejects a concrete TRACE request
with method-not-allowed, both via the general membership statement and
via the TRACE statement. -/
theorem spec_C4_witness :
    firewallDecision (strictHttpFirewall none) traceRequest =
      Except.error Failure.methodNotAllowed :=
  spec_C4.1 (strictHttpFirewall none) traceRequest createDefaultAllowedHttpMethods rfl (by decide)

/-! Substring-containment characterization of the blocklist gate. -/

theorem containsSub_iff (hay needle : List Char) :
    containsSub hay needle = true ↔ needle <:+: hay := by
  induction hay with
  | nil => simp [containsSub, List.isEmpty_iff]
  | cons c rest ih =>
    rw [containsSub]
    simp [ih, List.infix_cons_iff]

theorem valueContains_iff (field : Option String) (needle : String) :
    valueContains field needle = true ↔ fieldHas field needle := by
  cases field with
  | none => simp [valueContains, fieldHas]
  | some v =>
    obtain ⟨cs⟩ := v
    simp [valueContains, fieldHas, containsSub_iff, List.length_eq_zero]

theorem blocklistGateFails_iff (fw : FirewallState) (req : Request) :
    blocklistGateFails fw req = true ↔
      (∃ needle ∈ fw.encodedUrlBlocklist,
        ∃ field ∈ [req.path, req.url, req.baseUrl, req.originalUrl, req.route],
          fieldHas field needle) ∨
      (∃ needle ∈ fw.decodedUrlBlocklist, fieldHas req.path needle) := by
  simp only [blocklistGateFails, Bool.or_eq_true, List.any_eq_true, encodedUrlContains,
    decodedUrlContains, valueContains_iff, List.mem_cons, List.not_mem_nil]
  constructor
  · rintro (⟨n, hn, hc⟩ | ⟨n, hn, hc⟩)
    · refine Or.inl ⟨n, hn, ?_⟩
      rcases hc with ((((h | h) | h) | h) | h) <;>
        [exact ⟨req.path, by simp, h⟩; exact ⟨req.url, by simp, h⟩;
         exact ⟨req.baseUrl, by simp, h⟩; exact ⟨req.originalUrl, by simp, h⟩;
         exact ⟨req.route, by simp, h⟩]
    · exact Or.inr ⟨n, hn, hc⟩
  · rintro (⟨n, hn, f, hf, h⟩ | ⟨n, hn, h⟩)
    · refine Or.inl ⟨n, hn, ?_⟩
      rcases hf with rfl | rfl | rfl | rfl | rfl | hfalse
      · tauto
      · tauto
      · tauto
      · tauto
      · tauto
      · cases hfalse
    · exact Or.inr ⟨n, hn, h⟩

/-- C1: the blocklist gate rejects exactly when some encoded-blocklist
entry is contained in one of the raw representations (decoded path, raw
URL, base path, original URL, matched route — each only when present and
non-empty) or some decoded-blocklist entry is contained in the decoded
path; the decoded list is checked against the decoded path only. -/
theorem spec_C1 (fw : FirewallState) (req : Request) :
    rejectedBlocklistedUrls fw req = Except.error Failure.blocklisted ↔
      (∃ needle ∈ fw.encodedUrlBlocklist,
        ∃ field ∈ [req.path, req.url, req.baseUrl, req.originalUrl, req.route],
          fieldHas field needle) ∨
      (∃ needle ∈ fw.decodedUrlBlocklist, fieldHas req.path needle) := by
  rw [rejectedBlocklistedUrls_eq]
  by_cases hb : blocklistGateFails fw req
  · rw [if_pos hb]
    exact ⟨fun _ => (blocklistGateFails_iff fw req).mp hb, fun _ => rfl⟩
  · rw [if_neg hb]
    constructor
    · intro hcontra
      cases hcontra
    · intro hrhs
      exact absurd ((blocklistGateFails_iff fw req).mpr hrhs) hb

/-! Correctness of the right-to-left normalization scan against the
segment-based specification. -/

theorem charAtD_append_left {xs : List Char} (zs : List Char) {i : Nat} (h : i < xs.length) :
    charAtD (xs ++ zs) i = charAtD xs i := by
  simp [charAtD, List.getD_eq_getElem?_getD, List.getElem?_append_left h]

theorem charAtD_append_right {xs : List Char} (zs : List Char) {i : Nat} (h : xs.length ≤ i) :
    charAtD (xs ++ zs) i = charAtD zs (i - xs.length) := by
  simp [charAtD, List.getD_eq_getElem?_getD, List.getElem?_append_right h]

theorem isNormalizedAux_zero (cs : List Char) : isNormalizedAux cs 0 = true := by
  rw [isNormalizedAux]

theorem isNormalizedAux_succ_none {cs : List Char} {i : Nat} (h : lastSlashLE cs i = none) :
    isNormalizedAux cs (i + 1) =
      (if i + 2 = 2 ∧ charAtD cs 0 = '.' then false
       else if i + 2 = 3 ∧ charAtD cs 0 = '.' ∧ charAtD cs 1 = '.' then false
       else true) := by
  rw [isNormalizedAux]
  split
  · rfl
  · rename_i s heq
    rw [h] at heq
    cases heq

theorem isNormalizedAux_succ_some {cs : List Char} {i s : Nat} (h : lastSlashLE cs i = some s) :
    isNormalizedAux cs (i + 1) =
      (if i + 1 - s = 2 ∧ charAtD cs (s + 1) = '.' then false
       else if i + 1 - s = 3 ∧ charAtD cs (s + 1) = '.' ∧ charAtD cs (s + 2) = '.' then false
       else isNormalizedAux cs s) := by
  rw [isNormalizedAux]
  split
  · rename_i heq
    rw [h] at heq
    cases heq
  · rename_i s' heq
    rw [h] at heq
    cases heq
    rfl

theorem lastSlashLE_append (xs zs : List Char) :
    ∀ j, j < xs.length → lastSlashLE (xs ++ zs) j = lastSlashLE xs j := by
  intro j
  induction j with
  | zero =>
    intro h
    simp only [lastSlashLE, charAtD_append_left zs h]
  | succ n ih =>
    intro h
    simp only [lastSlashLE, charAtD_append_left zs h]
    by_cases hc : charAtD xs (n + 1) = '/'
    · simp [hc]
    · simp [hc, ih (by omega)]

theorem isNormalizedAux_append (xs zs : List Char) :
    ∀ i, i ≤ xs.length → isNormalizedAux (xs ++ zs) i = isNormalizedAux xs i := by
  intro i
  induction i using Nat.strong_induction_on with
  | _ i ih =>
    intro hle
    cases i with
    | zero => rw [isNormalizedAux_zero, isNormalizedAux_zero]
    | succ n =>
      have hn : n < xs.length := by omega
      have hsl := lastSlashLE_append xs zs n hn
      cases h : lastSlashLE xs n with
      | none =>
        rw [isNormalizedAux_succ_none (hsl.trans h), isNormalizedAux_succ_none h]
        by_cases h2 : n + 2 = 2
        · have hn0 : n = 0 := by omega
          subst hn0
          rw [charAtD_append_left zs (show 0 < xs.length by omega)]
          simp
        · by_cases h3 : n + 2 = 3
          · have hn1 : n = 1 := by omega
            subst hn1
            rw [charAtD_append_left zs (show 0 < xs.length by omega),
              charAtD_append_left zs (show 1 < xs.length by omega)]
          · simp [h2, h3]
      | some s =>
        have hs : s ≤ n := lastSlashLE_le h
        rw [isNormalizedAux_succ_some (hsl.trans h), isNormalizedAux_succ_some h]
        by_cases h2 : n + 1 - s = 2
        · rw [charAtD_append_left zs (show s + 1 < xs.length by omega)]
          by_cases hdot : charAtD xs (s + 1) = '.'
          · simp [h2, hdot]
          · simp [h2, hdot, show ¬(n + 1 - s = 3) by omega, ih s (by omega) (by omega)]
        · by_cases h3 : n + 1 - s = 3
          · rw [charAtD_append_left zs (show s + 1 < xs.length by omega),
              charAtD_append_left zs (show s + 2 < xs.length by omega)]
            by_cases hd1 : charAtD xs (s + 1) = '.' <;>
              by_cases hd2 : charAtD xs (s + 2) = '.' <;>
              simp [h2, h3, hd1, hd2, ih s (by omega) (by omega)]
          · simp [h2, h3, ih s (by omega) (by omega)]

theorem charAtD_mem {ys : List Char} {j : Nat} (hj : j < ys.length) : charAtD ys j ∈ ys := by
  simp only [charAtD, List.getD_eq_getElem?_getD, List.getElem?_eq_getElem hj, Option.getD_some]
  exact List.getElem_mem hj

theorem lastSlashLE_no_slash {ys : List Char} (h : '/' ∉ ys) :
    ∀ j, j < ys.length → lastSlashLE ys j = none := by
  intro j
  induction j with
  | zero =>
    intro hj
    rw [lastSlashLE, if_neg]
    intro e
    exact h (e ▸ charAtD_mem hj)
  | succ n ih =>
    intro hj
    rw [lastSlashLE, if_neg]
    · exact ih (by omega)
    · intro e
      exact h (e ▸ charAtD_mem hj)

theorem lastSlashLE_of_slash {cs : List Char} {j : Nat} (hj : charAtD cs j = '/') :
    lastSlashLE cs j = some j := by
  cases j with
  | zero => rw [lastSlashLE, if_pos hj]
  | succ n => rw [lastSlashLE, if_pos hj]

theorem lastSlashLE_last {xs ys : List Char} (h : '/' ∉ ys) :
    ∀ k, k ≤ ys.length → lastSlashLE (xs ++ '/' :: ys) (xs.length + k) = some xs.length := by
  intro k
  induction k with
  | zero =>
    intro _
    simp only [Nat.add_zero]
    apply lastSlashLE_of_slash
    rw [charAtD_append_right _ (Nat.le_refl _)]
    simp [charAtD]
  | succ n ih =>
    intro hk
    have hchar : charAtD (xs ++ '/' :: ys) (xs.length + n + 1) ≠ '/' := by
      rw [charAtD_append_right _ (by omega)]
      have hidx : xs.length + n + 1 - xs.length = n + 1 := by omega
      rw [hidx]
      simp only [charAtD, List.getD_cons_succ]
      intro e
      exact h (e ▸ charAtD_mem (show n < ys.length by omega))
    have hshape : xs.length + (n + 1) = (xs.length + n) + 1 := by omega
    rw [hshape, lastSlashLE, if_neg hchar]
    exact ih (by omega)

theorem splitSlash_ne_nil (cs : List Char) : splitSlash cs ≠ [] := by
  cases cs with
  | nil => simp [splitSlash]
  | cons c t =>
    rw [splitSlash]
    by_cases hc : c = '/'
    · simp [hc]
    · rw [if_neg hc]
      cases h : splitSlash t <;> simp

theorem splitSlash_no_slash : ∀ {ys : List Char}, '/' ∉ ys → splitSlash ys = [ys]
  | [], _ => rfl
  | c :: t, h => by
    have hc : ¬(c = '/') := fun e => h (e ▸ List.mem_cons_self c t)
    rw [splitSlash, if_neg hc,
      splitSlash_no_slash fun hm => h (List.mem_cons_of_mem _ hm)]

theorem splitSlash_append {ys : List Char} (xs : List Char) (h : '/' ∉ ys) :
    splitSlash (xs ++ '/' :: ys) = splitSlash xs ++ [ys] := by
  induction xs with
  | nil =>
    simp only [List.nil_append]
    simp [splitSlash, splitSlash_no_slash h]
  | cons c t ih =>
    rw [List.cons_append, splitSlash]
    by_cases hc : c = '/'
    · rw [if_pos hc, ih, splitSlash, if_pos hc]
      rfl
    · rw [if_neg hc, ih]
      obtain ⟨s, ss, hss⟩ : ∃ s ss, splitSlash t = s :: ss := by
        cases hsp : splitSlash t with
        | nil => exact absurd hsp (splitSlash_ne_nil t)
        | cons s ss => exact ⟨s, ss, rfl⟩
      rw [hss, splitSlash, if_neg hc, hss]
      rfl

theorem allSegOk_append_slash {xs ys : List Char} (h : '/' ∉ ys) :
    allSegOk (xs ++ '/' :: ys) = (allSegOk xs && segOk ys) := by
  unfold allSegOk
  rw [splitSlash_append xs h, List.all_append]
  simp

theorem isNormalizedStr_append_slash {xs ys : List Char} (h : '/' ∉ ys) :
    isNormalizedStr (xs ++ '/' :: ys) = (segOk ys && isNormalizedStr xs) := by
  unfold isNormalizedStr
  have hlen : (xs ++ '/' :: ys).length = (xs.length + ys.length) + 1 := by
    simp
    omega
  rw [hlen]
  have hsl : lastSlashLE (xs ++ '/' :: ys) (xs.length + ys.length) = some xs.length :=
    lastSlashLE_last h ys.length (Nat.le_refl _)
  rw [isNormalizedAux_succ_some hsl]
  have hgap : xs.length + ys.length + 1 - xs.length = ys.length + 1 := by omega
  rw [hgap, isNormalizedAux_append xs ('/' :: ys) xs.length (Nat.le_refl _)]
  cases ys with
  | nil => simp [segOk]
  | cons a t =>
    have hca : charAtD (xs ++ '/' :: a :: t) (xs.length + 1) = a := by
      rw [charAtD_append_right _ (by omega)]
      have : xs.length + 1 - xs.length = 1 := by omega
      rw [this]
      simp [charAtD]
    cases t with
    | nil =>
      rw [hca]
      by_cases ha : a = '.' <;> simp [ha, segOk]
    | cons b t2 =>
      have hcb : charAtD (xs ++ '/' :: a :: b :: t2) (xs.length + 2) = b := by
        rw [charAtD_append_right _ (by omega)]
        have : xs.length + 2 - xs.length = 2 := by omega
        rw [this]
        simp [charAtD]
      cases t2 with
      | nil =>
        rw [hca, hcb]
        by_cases ha : a = '.' <;> by_cases hb : b = '.' <;> simp [ha, hb, segOk]
      | cons c t3 =>
        have hlen2 : (a :: b :: c :: t3).length + 1 = t3.length + 4 := by simp
        rw [hlen2]
        simp [segOk, show ¬(t3.length + 4 = 2) by omega, show ¬(t3.length + 4 = 3) by omega]

theorem isNormalizedStr_no_slash {ys : List Char} (h : '/' ∉ ys) :
    isNormalizedStr ys = segOk ys := by
  cases ys with
  | nil => simp [isNormalizedStr, isNormalizedAux_zero, segOk]
  | cons a t =>
    unfold isNormalizedStr
    have hsl : lastSlashLE (a :: t) t.length = none :=
      lastSlashLE_no_slash h t.length (by simp)
    rw [show (a :: t).length = t.length + 1 from by simp, isNormalizedAux_succ_none hsl]
    cases t with
    | nil =>
      by_cases ha : a = '.' <;> simp [ha, segOk, charAtD]
    | cons b t2 =>
      have hcb : charAtD (a :: b :: t2) 1 = b := rfl
      cases t2 with
      | nil =>
        by_cases ha : a = '.' <;> by_cases hb : b = '.' <;> simp [ha, hb, segOk, charAtD]
      | cons c t3 =>
        simp [segOk, show ¬(t3.length + 2 + 2 = 2) by omega,
          show ¬(t3.length + 2 + 2 = 3) by omega]

theorem exists_last_slash {cs : List Char} (h : '/' ∈ cs) :
    ∃ xs ys, cs = xs ++ '/' :: ys ∧ '/' ∉ ys := by
  induction cs with
  | nil => cases h
  | cons c t ih =>
    by_cases ht : '/' ∈ t
    · obtain ⟨xs, ys, heq, hys⟩ := ih ht
      exact ⟨c :: xs, ys, by rw [heq]; rfl, hys⟩
    · have hc : c = '/' := by
        rcases List.mem_cons.mp h with h' | h'
        · exact h'.symm
        · exact absurd h' ht
      exact ⟨[], t, by simp [hc], ht⟩

/-- The scan of `isNormalized` agrees with the segment-based description:
a string passes iff no `/`-delimited segment is `.` or `..`. -/
theorem isNormalizedStr_eq_allSegOk : ∀ cs : List Char, isNormalizedStr cs = allSegOk cs := by
  intro cs
  generalize hn : cs.length = n
  induction n using Nat.strong_induction_on generalizing cs with
  | _ n ih =>
    by_cases h : '/' ∈ cs
    · obtain ⟨xs, ys, rfl, hys⟩ := exists_last_slash h
      have hxs : xs.length < n := by
        rw [← hn]
        simp
      rw [isNormalizedStr_append_slash hys, allSegOk_append_slash hys,
        ih xs.length hxs xs rfl, Bool.and_comm]
    · rw [isNormalizedStr_no_slash h, allSegOk, splitSlash_no_slash h]
      simp

/-- C3: the normalization check passes every path with no `.`/`..`
segment, in particular the absent and the empty path, and fails every
path ending in `/.` or `/..` and the paths `.` and `..`. -/
theorem spec_C3 :
    (∀ p : String, (∀ seg ∈ splitSlash p.data, segOk seg = true) →
      isNormalized (some p) = true) ∧
    isNormalized none = true ∧
    isNormalized (some "") = true ∧
    (∀ p : String, isNormalized (some (p ++ "/.")) = false) ∧
    (∀ p : String, isNormalized (some (p ++ "/..")) = false) ∧
    isNormalized (some ".") = false ∧
    isNormalized (some "..") = false := by
  have hsome : ∀ p : String, isNormalized (some p) = isNormalizedStr p.data := fun _ => rfl
  refine ⟨?_, rfl, ?_, ?_, ?_, ?_, ?_⟩
  · intro p hseg
    rw [hsome, isNormalizedStr_eq_allSegOk, allSegOk]
    exact List.all_eq_true.mpr hseg
  · rw [hsome, isNormalizedStr_eq_allSegOk]
    decide
  · intro p
    rw [hsome, String.data_append, show ("/." : String).data = ['/', '.'] from rfl,
      isNormalizedStr_eq_allSegOk, allSegOk_append_slash (by decide)]
    simp [segOk]
  · intro p
    rw [hsome, String.data_append, show ("/.." : String).data = ['/', '.', '.'] from rfl,
      isNormalizedStr_eq_allSegOk, allSegOk_append_slash (by decide)]
    simp [segOk]
  · rw [hsome, show ("." : String).data = ['.'] from rfl,
      isNormalizedStr_no_slash (by decide)]
    decide
  · rw [hsome, show (".." : String).data = ['.', '.'] from rfl,
      isNormalizedStr_no_slash (by decide)]
    decide

/-- Witness for C3: concrete evaluations through the theorem. -/
theorem spec_C3_witness :
    isNormalized (some "/a/b") = true ∧ isNormalized (some "/a/.") = false :=
  ⟨spec_C3.1 "/a/b" (by decide), spec_C3.2.2.2.1 "/a"⟩

/-! Monotonicity of the `allowX` toggles for the blocklist gate. -/

theorem removeItem_count (l : List String) (x a : String) :
    (removeItem l x).count a = l.count a - (if x = a then 1 else 0) := by
  induction l with
  | nil => simp [removeItem]
  | cons b l ih =>
    rw [removeItem]
    by_cases hb : b = x
    · subst hb
      rw [if_pos rfl, List.count_cons]
      by_cases hba : b = a <;> simp [hba]
    · rw [if_neg hb, List.count_cons, List.count_cons, ih]
      by_cases hxa : x = a
      · have hba : (b == a) = false := by
          simp only [beq_eq_false_iff_ne, ne_eq]
          exact fun e => hb (e.trans hxa.symm)
        simp [hxa, hba]
      · simp [hxa]

theorem removeItems_count (l items : List String) (a : String) :
    (removeItems l items).count a = l.count a - items.count a := by
  induction items generalizing l with
  | nil => simp [removeItems]
  | cons x xs ih =>
    rw [removeItems, List.foldl_cons,
      show xs.foldl removeItem (removeItem l x) = removeItems (removeItem l x) xs from rfl,
      ih, removeItem_count, List.count_cons]
    by_cases hxa : x = a <;> simp [hxa] <;> omega

theorem pairLe_refl (p : BlockPair) : pairLe p p :=
  ⟨fun _ => Nat.le_refl _, fun _ => Nat.le_refl _⟩

theorem count_append_mono {l1 l2 : List String} (vs : List String) (a : String)
    (h : l1.count a ≤ l2.count a) : (l1 ++ vs).count a ≤ (l2 ++ vs).count a := by
  rw [List.count_append, List.count_append]
  omega

theorem count_removeItems_mono {l1 l2 : List String} (vs : List String) (a : String)
    (h : l1.count a ≤ l2.count a) :
    (removeItems l1 vs).count a ≤ (removeItems l2 vs).count a := by
  rw [removeItems_count, removeItems_count]
  omega

theorem pairAddAll_mono (vs : List String) {p q : BlockPair} (h : pairLe p q) :
    pairLe (pairAddAll vs p) (pairAddAll vs q) :=
  ⟨fun a => count_append_mono vs a (h.1 a), fun a => count_append_mono vs a (h.2 a)⟩

theorem pairRemoveAll_mono (vs : List String) {p q : BlockPair} (h : pairLe p q) :
    pairLe (pairRemoveAll vs p) (pairRemoveAll vs q) :=
  ⟨fun a => count_removeItems_mono vs a (h.1 a), fun a => count_removeItems_mono vs a (h.2 a)⟩

theorem pushEnc_mono (vs : List String) {p q : BlockPair} (h : pairLe p q) :
    pairLe (pushEnc vs p) (pushEnc vs q) :=
  ⟨fun a => count_append_mono vs a (h.1 a), h.2⟩

theorem pushDec_mono (vs : List String) {p q : BlockPair} (h : pairLe p q) :
    pairLe (pushDec vs p) (pushDec vs q) :=
  ⟨h.1, fun a => count_append_mono vs a (h.2 a)⟩

theorem removeEnc_mono (vs : List String) {p q : BlockPair} (h : pairLe p q) :
    pairLe (removeEnc vs p) (removeEnc vs q) :=
  ⟨fun a => count_removeItems_mono vs a (h.1 a), h.2⟩

/-- Removing literals yields (count-wise) a sub-pair of adding them. -/
theorem pairRemove_le_add (vs : List String) {p q : BlockPair} (h : pairLe p q) :
    pairLe (pairRemoveAll vs p) (pairAddAll vs q) := by
  refine ⟨fun a => ?_, fun a => ?_⟩
  · have := h.1 a
    rw [pairRemoveAll, pairAddAll]
    simp only [removeItems_count, List.count_append]
    omega
  · have := h.2 a
    rw [pairRemoveAll, pairAddAll]
    simp only [removeItems_count, List.count_append]
    omega

theorem removeEnc_le_push (vs : List String) {p q : BlockPair} (h : pairLe p q) :
    pairLe (removeEnc vs p) (pushEnc vs q) := by
  refine ⟨fun a => ?_, h.2⟩
  have := h.1 a
  rw [removeEnc, pushEnc]
  simp only [removeItems_count, List.count_append]
  omega

/-- Generic monotonicity for an option block acting on both lists. -/
theorem applyToggle_pair_mono {b b' : Bool} (hb : b = true → b' = true) (vs : List String)
    {p q : BlockPair} (h : pairLe p q) :
    pairLe (if b' then pairRemoveAll vs p else pairAddAll vs p)
      (if b then pairRemoveAll vs q else pairAddAll vs q) := by
  cases b' with
  | false =>
    have hbf : b = false := by
      cases b
      · rfl
      · exact absurd (hb rfl) (by simp)
    subst hbf
    simpa using pairAddAll_mono vs h
  | true =>
    cases b with
    | false => simpa using pairRemove_le_add vs h
    | true => simpa using pairRemoveAll_mono vs h

/-- Generic monotonicity for an option block acting on the encoded list. -/
theorem applyToggle_enc_mono {b b' : Bool} (hb : b = true → b' = true) (vs : List String)
    {p q : BlockPair} (h : pairLe p q) :
    pairLe (if b' then removeEnc vs p else pushEnc vs p)
      (if b then removeEnc vs q else pushEnc vs q) := by
  cases b' with
  | false =>
    have hbf : b = false := by
      cases b
      · rfl
      · exact absurd (hb rfl) (by simp)
    subst hbf
    simpa using pushEnc_mono vs h
  | true =>
    cases b with
    | false => simpa using removeEnc_le_push vs h
    | true => simpa using removeEnc_mono vs h

/-- Pointwise ordering of two option records: each toggle may only switch
from `false` to `true`, and the explicit user block lists coincide. -/
structure OptionsLe (o o' : HttpFirewallOptions) : Prop where
  semicolon : o.allowSemicolon = true → o'.allowSemicolon = true
  slash : o.allowUrlEncodedSlash = true → o'.allowUrlEncodedSlash = true
  dslash : o.allowUrlEncodedDoubleSlash = true → o'.allowUrlEncodedDoubleSlash = true
  period : o.allowUrlEncodedPeriod = true → o'.allowUrlEncodedPeriod = true
  backslash : o.allowBackSlash = true → o'.allowBackSlash = true
  nullByte : o.allowNull = true → o'.allowNull = true
  percent : o.allowUrlEncodedPercent = true → o'.allowUrlEncodedPercent = true
  cr : o.allowUrlEncodedCarriageReturn = true → o'.allowUrlEncodedCarriageReturn = true
  lf : o.allowUrlEncodedLineFeed = true → o'.allowUrlEncodedLineFeed = true
  ps : o.allowUrlEncodedParagraphSeparator = true → o'.allowUrlEncodedParagraphSeparator = true
  ls : o.allowUrlEncodedLineSeparator = true → o'.allowUrlEncodedLineSeparator = true
  decList : o'.decodedUrlBlockList = o.decodedUrlBlockList
  encList : o'.encodedUrlBlockList = o.encodedUrlBlockList

theorem applyAllowUrlEncodedPercent_mono {o o' : HttpFirewallOptions}
    (hb : o.allowUrlEncodedPercent = true → o'.allowUrlEncodedPercent = true)
    {p q : BlockPair} (h : pairLe p q) :
    pairLe (applyAllowUrlEncodedPercent o' p) (applyAllowUrlEncodedPercent o q) := by
  unfold applyAllowUrlEncodedPercent
  cases hb' : o'.allowUrlEncodedPercent with
  | false =>
    have hbf : o.allowUrlEncodedPercent = false := by
      cases hx : o.allowUrlEncodedPercent
      · rfl
      · exact absurd ((hb hx).symm.trans hb') (by simp)
    rw [hbf]
    exact ⟨fun a => count_append_mono _ a (h.1 a), fun a => count_append_mono _ a (h.2 a)⟩
  | true =>
    cases hx : o.allowUrlEncodedPercent with
    | false =>
      refine ⟨fun a => ?_, fun a => ?_⟩
      · have := h.1 a
        show (removeItems p.enc [ENCODED_PERCENT]).count a ≤ (q.enc ++ [ENCODED_PERCENT]).count a
        simp only [removeItems_count, List.count_append]
        omega
      · have := h.2 a
        show (removeItems p.dec [PERCENT]).count a ≤ (q.dec ++ [PERCENT]).count a
        simp only [removeItems_count, List.count_append]
        omega
    | true =>
      exact ⟨fun a => count_removeItems_mono _ a (h.1 a),
        fun a => count_removeItems_mono _ a (h.2 a)⟩

theorem applyUserBlockLists_mono {o o' : HttpFirewallOptions} (hle : OptionsLe o o')
    {p q : BlockPair} (h : pairLe p q) :
    pairLe (applyUserBlockLists o' p) (applyUserBlockLists o q) := by
  unfold applyUserBlockLists
  rw [hle.decList, hle.encList]
  have h1 : pairLe
      (match o.decodedUrlBlockList with
        | some l => if l.length ≠ 0 then pushDec l p else p
        | none => p)
      (match o.decodedUrlBlockList with
        | some l => if l.length ≠ 0 then pushDec l q else q
        | none => q) := by
    cases o.decodedUrlBlockList with
    | none => exact h
    | some l =>
      by_cases hl : l.length ≠ 0
      · simp only [if_pos hl]
        exact pushDec_mono l h
      · simp only [if_neg hl]
        exact h
  cases o.encodedUrlBlockList with
  | none => exact h1
  | some l =>
    by_cases hl : l.length ≠ 0
    · simp only [if_pos hl]
      exact pushEnc_mono l h1
    · simp only [if_neg hl]
      exact h1

theorem buildBlocklists_mono {o o' : HttpFirewallOptions} (hle : OptionsLe o o') :
    pairLe (buildBlocklists o') (buildBlocklists o) := by
  unfold buildBlocklists
  apply applyUserBlockLists_mono hle
  apply applyToggle_enc_mono hle.ls
  apply applyToggle_enc_mono hle.ps
  apply applyToggle_pair_mono hle.lf
  apply applyToggle_pair_mono hle.cr
  apply applyAllowUrlEncodedPercent_mono hle.percent
  apply applyToggle_pair_mono hle.nullByte
  apply applyToggle_pair_mono hle.backslash
  apply applyToggle_enc_mono hle.period
  apply applyToggle_pair_mono hle.dslash
  apply applyToggle_pair_mono hle.slash
  apply applyToggle_pair_mono hle.semicolon
  exact pairLe_refl baselinePair

theorem mem_enc_of_pairLe {p q : BlockPair} (h : pairLe p q) {a : String}
    (ha : a ∈ p.enc) : a ∈ q.enc :=
  List.count_pos_iff.mp (Nat.lt_of_lt_of_le (List.count_pos_iff.mpr ha) (h.1 a))

theorem mem_dec_of_pairLe {p q : BlockPair} (h : pairLe p q) {a : String}
    (ha : a ∈ p.dec) : a ∈ q.dec :=
  List.count_pos_iff.mp (Nat.lt_of_lt_of_le (List.count_pos_iff.mpr ha) (h.2 a))

theorem setOption_optionsLe (x : AllowOption) (o : HttpFirewallOptions) :
    OptionsLe (setOption x false o) (setOption x true o) := by
  cases x <;> exact {
    semicolon := by simp [setOption]
    slash := by simp [setOption]
    dslash := by simp [setOption]
    period := by simp [setOption]
    backslash := by simp [setOption]
    nullByte := by simp [setOption]
    percent := by simp [setOption]
    cr := by simp [setOption]
    lf := by simp [setOption]
    ps := by simp [setOption]
    ls := by simp [setOption]
    decList := by simp [setOption]
    encList := by simp [setOption] }

/-- C7: flipping any single `allowX` relaxation toggle from `false` to
`true`, all other configuration held fixed, can only shrink the blocklist
membership, so every request the blocklist gate passes under the strict
setting it also passes under the relaxed setting. -/
theorem spec_C7 (x : AllowOption) (o : HttpFirewallOptions) (req : Request)
    (hpass : rejectedBlocklistedUrls (strictHttpFirewall (some (setOption x false o))) req =
      .ok ()) :
    rejectedBlocklistedUrls (strictHttpFirewall (some (setOption x true o))) req = .ok () := by
  have hmono : pairLe (buildBlocklists (setOption x true o))
      (buildBlocklists (setOption x false o)) :=
    buildBlocklists_mono (setOption_optionsLe x o)
  rw [rejectedBlocklistedUrls_eq] at hpass ⊢
  by_cases hbF : blocklistGateFails (strictHttpFirewall (some (setOption x false o))) req
  · rw [if_pos hbF] at hpass
    cases hpass
  · have hbT : ¬blocklistGateFails (strictHttpFirewall (some (setOption x true o))) req = true := by
      intro hbT
      apply hbF
      unfold blocklistGateFails at hbT ⊢
      simp only [Bool.or_eq_true, List.any_eq_true] at hbT ⊢
      rcases hbT with ⟨n, hn, hc⟩ | ⟨n, hn, hc⟩
      · exact Or.inl ⟨n, mem_enc_of_pairLe hmono hn, hc⟩
      · exact Or.inr ⟨n, mem_dec_of_pairLe hmono hn, hc⟩
    rw [if_neg hbT]

/-- Witness for C7: a request blocked by neither configuration, checked
for the semicolon toggle. -/
theorem spec_C7_witness :
    rejectedBlocklistedUrls
      (strictHttpFirewall (some (setOption AllowOption.semicolon true {}))) simpleGetRequest =
      .ok () :=
  spec_C7 AllowOption.semicolon {} simpleGetRequest rfl

end HttpFirewall
